import Mathlib

/-!
Verification of the Sniftr recommendation core.

This file shallowly embeds the algorithmic core of the repository:

* `apps/api/intelligence/recommender.py` — the online engine
  (`load_artifacts`' reverse-map construction, `recommend_by_bottle_id`,
  `recommend_by_query`, `rerank_candidates`);
* `apps/api/intelligence/scripts/train_recommeder.py` — the offline builder
  (`clean_token`, `build_soup`, `compute_popularity_scores`).

Modelling conventions:

* Python floats are modelled as `ℚ` (exact rational arithmetic standing in
  for IEEE doubles; every division that actually occurs in the claims'
  scope has a provably non-zero denominator, except the popularity
  normalization where IEEE produces `NaN` — there the embedding returns
  `Option ℚ` with `none` standing for `NaN`).
* Python `dict`s are modelled as association lists with insert-overwrite
  semantics (`dinsert`): updating an existing key keeps its position,
  inserting a new key appends at the end, exactly CPython's behaviour.
* `numpy.argsort` is modelled as a sort of the index list by value
  ascending (`argsortAsc`); no claim below depends on how the underlying
  sort breaks ties.
* `sklearn`'s `cosine_similarity` is an external library call, not code of
  this repository; the similarity vector it returns is taken as an
  arbitrary `List ℚ` parameter `sims` (one entry per matrix row), so every
  theorem below holds for all possible similarity outcomes.
-/

/-- Insert-with-overwrite into an association list: the model of a CPython
`dict` assignment `d[k] = v` (an existing key keeps its position and gets the
new value; a new key is appended at the end). -/
def dinsert {α β : Type} [DecidableEq α] : List (α × β) → α → β → List (α × β)
  | [], k, v => [(k, v)]
  | (a, b) :: rest, k, v =>
      if a = k then (k, v) :: rest else (a, b) :: dinsert rest k v

/-- Model of `recommender.py` line 35:
`self.reverse_map = \x7bint(v): int(k) for k, v in self.id_map.items()\x7d`.
The artifact `id_map` has keys `str(0) .. str(n-1)` by construction
(`train_recommeder.py` line 64), so it is modelled as a plain list whose
index is the matrix row; the dict comprehension iterates rows in order and
builds the id → row dict by repeated insertion. -/
def build_reverse_map (id_map : List ℤ) : List (ℤ × ℕ) :=
  id_map.enum.foldl (fun d p => dinsert d p.2 p.1) []

/-- The engine state after `load_artifacts`: the row → id map and the
popularity map. (The vectorizer and the tf-idf matrix only feed the external
`cosine_similarity` call, which is modelled by the `sims` parameter.) -/
structure Engine where
  id_map : List ℤ
  popularity_map : List (ℤ × ℚ)

/-- The default blend weight `alpha = 0.85` of `rerank_candidates`. -/
def alphaDefault : ℚ := 85 / 100

/-- The epsilon `1e-9` of `rerank_candidates` line 116. -/
def rerankEps : ℚ := 1 / 1000000000

/-- Model of `rerank_candidates` (`recommender.py` lines 105–134).
`none` models a `KeyError` on `sim_scores[b_id]` (line 110) or a `min()/max()`
of an empty list — neither happens for the pools the engine builds.
Line 122's `sim_scores.get(b_id, 0.0)` is the `getD _ 0` below, line 126's
`popularity_map.get(b_id, 0.4)` is the `getD _ (4/10)`, line 129 is the
score formula, and line 133's stable descending sort by score is the
`mergeSort` on `fun x y => y.2 ≤ x.2`. -/
def rerank_candidates (popularity_map : List (ℤ × ℚ)) (candidate_ids : List ℤ)
    (sim_scores : List (ℤ × ℚ)) (alpha : ℚ) : Option (List ℤ) :=
  if candidate_ids = [] then some [] else
    match candidate_ids.mapM (fun b => sim_scores.lookup b) with
    | none => none
    | some raw_sims =>
      match raw_sims.min?, raw_sims.max? with
      | some min_sim, some max_sim =>
          let diff := max_sim - min_sim
          let scored_candidates := candidate_ids.map (fun b =>
            let raw_sim := (sim_scores.lookup b).getD 0
            let norm_sim := (raw_sim - min_sim) / (diff + rerankEps)
            let pop := (popularity_map.lookup b).getD (4 / 10)
            (b, norm_sim * alpha + pop * (1 - alpha)))
          some ((scored_candidates.mergeSort (fun x y => decide (y.2 ≤ x.2))).map
            Prod.fst)
      | _, _ => none

/-- Model of `numpy.argsort` on the flattened similarity vector: the indices
`0 .. n-1` ordered by similarity ascending. (numpy does not promise a
tie-break; no claim below depends on one.) -/
def argsortAsc (sims : List ℚ) : List ℕ :=
  (List.range sims.length).mergeSort (fun i j => decide (sims.getD i 0 ≤ sims.getD j 0))

/-- Model of the Python slice `l[-m:]`: the last `m` elements — except that
`l[-0:]` is `l[0:]`, the whole list (the `-0 == 0` quirk, reachable in
`recommend_by_query` when `k = 0`). -/
def pySliceLast {α : Type} (l : List α) (m : ℕ) : List α :=
  if m = 0 then l else l.drop (l.length - m)

/-- The candidate-id list built by the loop at `recommender.py` lines 67–73
(and lines 96–99 with `skip = fun _ => false`): map each pooled row index
through the id map, dropping ids the loop `continue`s over. A row index
outside the id map would raise a `KeyError` in Python; the `getD _ 0` default
is never reached when the artifacts are consistent
(`sims.length = id_map.length`). -/
def candidateIdsOf (id_map : List ℤ) (tops : List ℕ) (skip : ℤ → Bool) : List ℤ :=
  (tops.map (fun idx => id_map.getD idx 0)).filter (fun b => ! skip b)

/-- The `sim_scores` dict built by the same loop: one insert per
non-skipped index, in loop order, with dict overwrite semantics. -/
def candidateSimsOf (id_map : List ℤ) (sims : List ℚ) (tops : List ℕ)
    (skip : ℤ → Bool) : List (ℤ × ℚ) :=
  tops.foldl (fun d idx =>
    let b := id_map.getD idx 0
    if skip b then d else dinsert d b (sims.getD idx 0)) []

/-- The candidate pool size of `recommend_by_bottle_id` (line 56). -/
def pool_size : ℕ := 50

/-- Model of `recommend_by_bottle_id` (`recommender.py` lines 49–79):
look up the seed in the reverse map (absent ⇒ `[]`), take the top
`pool_size + 1 = 51` rows by similarity descending, drop every row whose id
equals the seed id, rerank with the default `alpha`, truncate to `k`. -/
def recommend_by_bottle_id (e : Engine) (sims : List ℚ) (bottle_id : ℤ)
    (k : ℕ) : Option (List ℤ) :=
  match (build_reverse_map e.id_map).lookup bottle_id with
  | none => some []
  | some _target_row_idx =>
      let top_indices := (pySliceLast (argsortAsc sims) (pool_size + 1)).reverse
      let skip := fun b => decide (b = bottle_id)
      let candidate_ids := candidateIdsOf e.id_map top_indices skip
      let sim_scores := candidateSimsOf e.id_map sims top_indices skip
      (rerank_candidates e.popularity_map candidate_ids sim_scores alphaDefault).map
        (fun l => l.take k)

/-- Model of `recommend_by_query` (`recommender.py` lines 85–102): here
`sims` is the similarity vector of the vectorized query against the matrix
(again an external library computation), the pool is the top `k` rows
(line 92 slices `[-k:]`, not `[-pool_size:]`), nothing is skipped, and the
reranked list is truncated to `k`. -/
def recommend_by_query (e : Engine) (sims : List ℚ) (k : ℕ) : Option (List ℤ) :=
  let top_indices := (pySliceLast (argsortAsc sims) k).reverse
  let candidate_ids := candidateIdsOf e.id_map top_indices (fun _ => false)
  let sim_scores := candidateSimsOf e.id_map sims top_indices (fun _ => false)
  (rerank_candidates e.popularity_map candidate_ids sim_scores alphaDefault).map
    (fun l => l.take k)

/-- The popularity looked up by the reranker, with the `0.4` default of
`recommender.py` line 126. -/
def popOf (popularity_map : List (ℤ × ℚ)) (b : ℤ) : ℚ :=
  ((popularity_map.lookup b).getD (4 / 10))

/-- The final score the reranker assigns to candidate `b` when its raw
similarity is `sc b` and the pool's similarity min/max are `mn`/`mx`
(`recommender.py` lines 122–129, closed form). -/
def finalScore (popularity_map : List (ℤ × ℚ)) (sc : ℤ → ℚ) (mn mx : ℚ)
    (alpha : ℚ) (b : ℤ) : ℚ :=
  (sc b - mn) / (mx - mn + rerankEps) * alpha + popOf popularity_map b * (1 - alpha)

/-! ## The offline builder (`train_recommeder.py`) -/

/-- `ACCORD_WEIGHT` (`train_recommeder.py` line 12). -/
def ACCORD_WEIGHT : ℕ := 3

/-- The character class of Python's regex `\s` (space, tab, newline,
carriage return, vertical tab, form feed). -/
def pySpace (c : Char) : Bool :=
  c == ' ' || c == '\t' || c == '\n' || c == '\r' || c == '\x0b' || c == '\x0c'

/-- Python `str.strip()`: drop whitespace from both ends. -/
def pyStrip (s : List Char) : List Char :=
  ((s.dropWhile pySpace).reverse.dropWhile pySpace).reverse

/-- The string body of `clean_token` (`train_recommeder.py` line 20):
`re.sub(r'[^a-zA-Z0-9\s]', '', text).lower().strip()` — keep only ASCII
alphanumerics and whitespace, lowercase, strip. -/
def clean_chars (s : List Char) : List Char :=
  pyStrip ((s.filter (fun c => c.isAlphanum || pySpace c)).map Char.toLower)

/-- `clean_token` (`train_recommeder.py` lines 17–21). A cell value is
modelled as `Option (List Char)`: `none` is a pandas `NaN` (or any
non-string), which `pd.isna`/`isinstance` turn into `""`. -/
def clean_token : Option (List Char) → List Char
  | none => []
  | some s => clean_chars s

/-- Python `str(x)` for a cell value: `NaN` prints as `"nan"`. -/
def pyStr : Option (List Char) → List Char
  | none => [ 'n', 'a', 'n' ]
  | some s => s

/-- Python `s.split(',')` on a character list (note `"".split(',') = [""]`). -/
def splitComma (s : List Char) : List (List Char) :=
  s.foldr (fun c acc =>
    match acc with
    | [] => if c = ',' then [[], []] else [[c]]
    | cur :: rest => if c = ',' then [] :: cur :: rest else (c :: cur) :: rest)
    [[]]

/-- The placeholder list of `build_soup` lines 30 and 34:
`['null', 'nan', 'none']`. -/
def placeholders : List (List Char) :=
  [['n', 'u', 'l', 'l'], ['n', 'a', 'n'], ['n', 'o', 'n', 'e']]

/-- One catalog row as `build_soup` reads it: the five `mainaccord{i}`
columns and the `Top`/`Middle`/`Base` note columns (`none` = `NaN` cell). -/
structure SoupRow where
  mainaccord1 : Option (List Char)
  mainaccord2 : Option (List Char)
  mainaccord3 : Option (List Char)
  mainaccord4 : Option (List Char)
  mainaccord5 : Option (List Char)
  top : Option (List Char)
  middle : Option (List Char)
  base : Option (List Char)

/-- The token list accumulated by `build_soup` (`train_recommeder.py` lines
26–35): for each accord slot in order, if the cleaned value is non-empty and
not a placeholder, the value repeated `ACCORD_WEIGHT` times; then for each of
`Top`, `Middle`, `Base` in order, the cleaned comma-split pieces that are
non-empty and not placeholders. -/
def soup_tokens (row : SoupRow) : List (List Char) :=
  (([row.mainaccord1, row.mainaccord2, row.mainaccord3, row.mainaccord4,
      row.mainaccord5].map clean_token).filter
        (fun val => val ≠ [] && ! placeholders.contains val)).flatMap
    (fun val => List.replicate ACCORD_WEIGHT val) ++
  ([row.top, row.middle, row.base].flatMap
    (fun col => (splitComma (pyStr col)).map (fun n => clean_chars n))).filter
      (fun n => n ≠ [] && ! placeholders.contains n)

/-- `build_soup` (`train_recommeder.py` lines 26–35): the space-joined
token string. -/
def build_soup (row : SoupRow) : String :=
  String.intercalate " " ((soup_tokens row).map (fun t => String.mk t))

/-- The shrinkage threshold `m = 50` (`train_recommeder.py` line 84). -/
def m_threshold : ℚ := 50

/-- The global mean `C = R[v > 0].mean()` (`train_recommeder.py` line 83):
the mean rating over items with a positive rating count, or `none` (pandas
`NaN` for the mean of an empty selection) when no item has one. `v` and `R`
are the rating-count and rating-value columns after the
`to_numeric(...).fillna(0)` coercions of lines 74–79. -/
def globalMeanC (v R : List ℚ) : Option ℚ :=
  let rated := ((v.zip R).filter (fun p => 0 < p.1)).map Prod.snd
  if rated = [] then none else some (rated.sum / rated.length)

/-- The IMDB weighted ratings `WR = (v/(v+m))·R + (m/(v+m))·C`
(`train_recommeder.py` line 95), one per item. -/
def weightedRatings (v R : List ℚ) (C : ℚ) : List ℚ :=
  (v.zip R).map (fun p =>
    p.1 / (p.1 + m_threshold) * p.2 + m_threshold / (p.1 + m_threshold) * C)

/-- The min-max normalization `(WR - min) / (max - min)`
(`train_recommeder.py` lines 99–101). IEEE arithmetic turns the degenerate
`max = min` corpus into `0/0 = NaN` for every item (numpy emits a warning,
not an exception); `NaN` is modelled as `none`. -/
def normalizeScores (wr : List ℚ) : List (Option ℚ) :=
  match wr.min?, wr.max? with
  | some mn, some mx =>
      wr.map (fun x => if mx - mn = 0 then none else some ((x - mn) / (mx - mn)))
  | _, _ => []

/-- `compute_popularity_scores` (`train_recommeder.py` lines 72–105):
the map `original_index → normalized score`, as the zip of the id column
with the normalized weighted ratings. The outer `Option` is `none` when the
global mean is already `NaN` (no rated item), which poisons every score. -/
def compute_popularity_scores (ids : List ℤ) (v R : List ℚ) :
    Option (List (ℤ × Option ℚ)) :=
  (globalMeanC v R).map (fun C => ids.zip (normalizeScores (weightedRatings v R C)))

/-! ## Dictionary lemmas -/

theorem lookup_cons_eq_if {β : Type} (a k' : ℤ) (b : β) (rest : List (ℤ × β)) :
    List.lookup k' ((a, b) :: rest) = if k' = a then some b else rest.lookup k' := by
  by_cases h : k' = a
  · simp [List.lookup, h]
  · have hb : (k' == a) = false := beq_eq_false_iff_ne.mpr h
    simp [List.lookup, hb, h]

theorem lookup_dinsert {β : Type} (d : List (ℤ × β)) (k k' : ℤ) (v : β) :
    (dinsert d k v).lookup k' = if k' = k then some v else d.lookup k' := by
  induction d with
  | nil =>
      by_cases h : k' = k <;> simp [dinsert, lookup_cons_eq_if, h]
  | cons p rest ih =>
      obtain ⟨a, b⟩ := p
      by_cases hp : a = k
      · subst hp
        rw [show dinsert ((a, b) :: rest) a v = (a, v) :: rest from if_pos rfl]
        rw [lookup_cons_eq_if, lookup_cons_eq_if]
        by_cases h : k' = a <;> simp [h]
      · rw [show dinsert ((a, b) :: rest) k v = (a, b) :: dinsert rest k v from
          if_neg hp]
        rw [lookup_cons_eq_if, lookup_cons_eq_if, ih]
        by_cases h1 : k' = a
        · have h2 : ¬ k' = k := fun hc => hp (h1.symm.trans hc)
          rw [if_pos h1, if_neg h2, if_pos h1]
        · by_cases h2 : k' = k
          · rw [if_neg h1, if_pos h2, if_pos h2]
          · rw [if_neg h1, if_neg h2, if_neg h2, if_neg h1]

theorem lookup_foldl_dinsert (l : List (ℕ × ℤ)) (d : List (ℤ × ℕ)) (i : ℤ) :
    (l.foldl (fun acc p => dinsert acc p.2 p.1) d).lookup i =
      (((l.filter (fun p => p.2 = i)).map Prod.fst).getLast?).or (d.lookup i) := by
  induction l using List.reverseRecOn generalizing d with
  | nil => simp
  | append_singleton t p ih =>
      rw [List.foldl_append]
      simp only [List.foldl_cons, List.foldl_nil]
      rw [lookup_dinsert, List.filter_append, List.map_append]
      by_cases h : p.2 = i
      · rw [List.filter_cons_of_pos (by simpa using h), List.filter_nil,
          List.map_cons, List.map_nil, List.getLast?_append_cons,
          List.getLast?_singleton, if_pos h.symm]
        rfl
      · have hne : ¬ i = p.2 := fun hc => h hc.symm
        rw [List.filter_cons_of_neg (by simpa using h), List.filter_nil,
          List.map_nil, List.append_nil, if_neg hne, ih]

/-- The reverse map the engine builds at load is exactly "last row wins":
looking up an id yields the row index of its last occurrence in `id_map`
(and `none` when the id does not occur). -/
theorem lookup_build_reverse_map (id_map : List ℤ) (i : ℤ) :
    (build_reverse_map id_map).lookup i =
      ((id_map.enum.filter (fun p => p.2 = i)).map Prod.fst).getLast? := by
  rw [build_reverse_map, lookup_foldl_dinsert]
  simp [List.lookup]

/-- A successful reverse-map lookup returns an in-range row that the forward
map sends back to the looked-up id. -/
theorem build_reverse_map_sound {id_map : List ℤ} {i : ℤ} {r : ℕ}
    (h : (build_reverse_map id_map).lookup i = some r) :
    r < id_map.length ∧ id_map.getD r 0 = i := by
  rw [lookup_build_reverse_map] at h
  have hmem : r ∈ (id_map.enum.filter (fun p => p.2 = i)).map Prod.fst := by
    obtain ⟨hne, heq⟩ := List.mem_getLast?_eq_getLast (Option.mem_def.2 h)
    exact heq ▸ List.getLast_mem hne
  rcases List.mem_map.1 hmem with ⟨p, hp, hfst⟩
  rcases List.mem_filter.1 hp with ⟨henum, hsnd⟩
  have hsnd' : p.2 = i := by simpa using hsnd
  have hget : id_map[p.1]? = some p.2 := List.mem_enum_iff_getElem?.1 henum
  have hlt : p.1 < id_map.length := by
    by_contra hge
    rw [List.getElem?_eq_none (Nat.le_of_not_lt hge)] at hget
    exact Option.noConfusion hget
  subst hfst
  refine ⟨hlt, ?_⟩
  rw [List.getD_eq_getElem?_getD, hget]
  simpa using hsnd'

/-! ## Reranker lemmas -/

theorem qmin?_eq_some_iff {xs : List ℚ} {a : ℚ} :
    xs.min? = some a ↔ a ∈ xs ∧ ∀ b ∈ xs, a ≤ b := by
  haveI : Std.Antisymm (fun a b : ℚ => a ≤ b) := ⟨fun h h' => le_antisymm h h'⟩
  exact List.min?_eq_some_iff (fun _ => le_refl _) (fun _ _ => min_choice _ _)
    (fun _ _ _ => le_min_iff)

theorem qmax?_eq_some_iff {xs : List ℚ} {a : ℚ} :
    xs.max? = some a ↔ a ∈ xs ∧ ∀ b ∈ xs, b ≤ a := by
  haveI : Std.Antisymm (fun a b : ℚ => a ≤ b) := ⟨fun h h' => le_antisymm h h'⟩
  exact List.max?_eq_some_iff (fun _ => le_refl _) (fun _ _ => max_choice _ _)
    (fun _ _ _ => max_le_iff)

theorem mapM_lookup_eq (ss : List (ℤ × ℚ)) (ids : List ℤ) (sc : ℤ → ℚ)
    (h : ∀ b ∈ ids, ss.lookup b = some (sc b)) :
    ids.mapM (fun b => ss.lookup b) = some (ids.map sc) := by
  induction ids with
  | nil => rfl
  | cons a t ih =>
      rw [List.mapM_cons, h a (List.mem_cons_self a t),
        ih (fun b hb => h b (List.mem_cons_of_mem a hb))]
      rfl

/-- Unfolding `rerank_candidates` on a pool whose candidates all carry a
similarity score: it sorts the pairs `(b, finalScore b)` by score descending
and projects out the ids. -/
theorem rerank_eq_of (pm ss : List (ℤ × ℚ)) (ids : List ℤ) (sc : ℤ → ℚ)
    (alpha mn mx : ℚ) (hne : ids ≠ [])
    (hsc : ∀ b ∈ ids, ss.lookup b = some (sc b))
    (hmn : (ids.map sc).min? = some mn) (hmx : (ids.map sc).max? = some mx) :
    rerank_candidates pm ids ss alpha =
      some (((ids.map (fun b => (b, finalScore pm sc mn mx alpha b))).mergeSort
        (fun x y => decide (y.2 ≤ x.2))).map Prod.fst) := by
  unfold rerank_candidates
  rw [if_neg hne]
  simp only [mapM_lookup_eq ss ids sc hsc, hmn, hmx]
  have hmap : ids.map (fun b =>
      (b, ((ss.lookup b).getD 0 - mn) / (mx - mn + rerankEps) * alpha +
        (pm.lookup b).getD (4 / 10) * (1 - alpha))) =
      ids.map (fun b => (b, finalScore pm sc mn mx alpha b)) :=
    List.map_congr_left (fun b hb => by
      rw [finalScore, popOf, hsc b hb]
      rfl)
  rw [hmap]

/-- When every candidate has a similarity score, the reranker succeeds and
returns a permutation of the candidate list. -/
theorem rerank_perm_of (pm ss : List (ℤ × ℚ)) (ids : List ℤ) (alpha : ℚ)
    (h : ∀ b ∈ ids, (ss.lookup b).isSome) :
    ∃ out, rerank_candidates pm ids ss alpha = some out ∧ out.Perm ids := by
  by_cases hne : ids = []
  · subst hne
    exact ⟨[], rfl, List.Perm.refl []⟩
  · have hsc : ∀ b ∈ ids, ss.lookup b = some ((ss.lookup b).getD 0) := by
      intro b hb
      rcases Option.isSome_iff_exists.1 (h b hb) with ⟨q, hq⟩
      rw [hq]
      rfl
    set sc : ℤ → ℚ := fun b => (ss.lookup b).getD 0 with hscdef
    have hmape : ids.map sc ≠ [] := by
      intro hc
      exact hne (List.map_eq_nil_iff.1 hc)
    obtain ⟨mn, hmn⟩ : ∃ mn, (ids.map sc).min? = some mn := by
      cases hm : (ids.map sc).min? with
      | none => exact absurd (List.min?_eq_none_iff.1 hm) hmape
      | some mn => exact ⟨mn, rfl⟩
    obtain ⟨mx, hmx⟩ : ∃ mx, (ids.map sc).max? = some mx := by
      cases hm : (ids.map sc).max? with
      | none => exact absurd (List.max?_eq_none_iff.1 hm) hmape
      | some mx => exact ⟨mx, rfl⟩
    refine ⟨_, rerank_eq_of pm ss ids sc alpha mn mx hne hsc hmn hmx, ?_⟩
    have hperm := (List.mergeSort_perm
      (ids.map (fun b => (b, finalScore pm sc mn mx alpha b)))
      (fun x y => decide (y.2 ≤ x.2))).map Prod.fst
    have hids : (ids.map (fun b => (b, finalScore pm sc mn mx alpha b))).map
        Prod.fst = ids := by
      have hfun : (Prod.fst ∘ fun b : ℤ => (b, finalScore pm sc mn mx alpha b)) =
          id := rfl
      rw [List.map_map, hfun, List.map_id]
    rw [hids] at hperm
    exact hperm

/-- The reranked pair list is pairwise sorted by score descending. -/
theorem rerank_sorted_of (pm ss : List (ℤ × ℚ)) (ids : List ℤ) (sc : ℤ → ℚ)
    (alpha mn mx : ℚ) (hne : ids ≠ [])
    (hsc : ∀ b ∈ ids, ss.lookup b = some (sc b))
    (hmn : (ids.map sc).min? = some mn) (hmx : (ids.map sc).max? = some mx) :
    ∃ out, rerank_candidates pm ids ss alpha = some out ∧ out.Perm ids ∧
      out.Pairwise (fun a b => finalScore pm sc mn mx alpha b ≤
        finalScore pm sc mn mx alpha a) := by
  set F := finalScore pm sc mn mx alpha with hF
  set scored := ids.map (fun b => (b, F b)) with hscored
  set sorted := scored.mergeSort (fun x y => decide (y.2 ≤ x.2)) with hsorted
  refine ⟨sorted.map Prod.fst,
    rerank_eq_of pm ss ids sc alpha mn mx hne hsc hmn hmx, ?_, ?_⟩
  · have hperm := (List.mergeSort_perm scored
      (fun x y => decide (y.2 ≤ x.2))).map Prod.fst
    have hids : scored.map Prod.fst = ids := by
      have hfun : (Prod.fst ∘ fun b : ℤ => (b, F b)) = id := rfl
      rw [hscored, List.map_map, hfun, List.map_id]
    rw [hids] at hperm
    exact hperm
  · have hpw : sorted.Pairwise (fun x y => (decide (y.2 ≤ x.2)) = true) := by
      refine List.sorted_mergeSort ?_ ?_ scored
      · intro a b c hab hbc
        rw [decide_eq_true_eq] at *
        exact le_trans hbc hab
      · intro a b
        rw [Bool.or_eq_true, decide_eq_true_eq, decide_eq_true_eq]
        exact le_total b.2 a.2
    have hsnd : ∀ x ∈ sorted, x.2 = F x.1 := by
      intro x hx
      have hx' : x ∈ scored :=
        (List.mergeSort_perm scored (fun x y => decide (y.2 ≤ x.2))).subset hx
      rcases List.mem_map.1 hx' with ⟨b, _, hb⟩
      rw [← hb]
    have hpw' : sorted.Pairwise (fun x y => F y.1 ≤ F x.1) := by
      refine hpw.imp_of_mem (fun hx hy h => ?_)
      rw [decide_eq_true_eq] at h
      rw [← hsnd _ hx, ← hsnd _ hy]
      exact h
    exact List.pairwise_map.2 hpw'

/-! ## Candidate-pool lemmas -/

theorem mem_candidateIdsOf {id_map : List ℤ} {tops : List ℕ} {skip : ℤ → Bool}
    {b : ℤ} (h : b ∈ candidateIdsOf id_map tops skip) :
    skip b = false ∧ ∃ idx ∈ tops, id_map.getD idx 0 = b := by
  rcases List.mem_filter.1 h with ⟨hmem, hskip⟩
  rcases List.mem_map.1 hmem with ⟨idx, hidx, hval⟩
  refine ⟨by simpa using hskip, idx, hidx, hval⟩

theorem candidateIdsOf_length_le (id_map : List ℤ) (tops : List ℕ)
    (skip : ℤ → Bool) : (candidateIdsOf id_map tops skip).length ≤ tops.length := by
  calc (candidateIdsOf id_map tops skip).length
      ≤ (tops.map (fun idx => id_map.getD idx 0)).length :=
        List.length_filter_le _ _
    _ = tops.length := List.length_map _ _

theorem lookup_candidateSimsOf_isSome (id_map : List ℤ) (sims : List ℚ)
    (skip : ℤ → Bool) (tops : List ℕ) (d : List (ℤ × ℚ)) (b : ℤ)
    (h : (∃ idx ∈ tops, id_map.getD idx 0 = b ∧ skip b = false) ∨
      (d.lookup b).isSome) :
    ((tops.foldl (fun d idx =>
      let bb := id_map.getD idx 0
      if skip bb then d else dinsert d bb (sims.getD idx 0)) d).lookup b).isSome := by
  induction tops generalizing d with
  | nil =>
      rcases h with ⟨idx, hidx, _⟩ | h
      · exact absurd hidx (List.not_mem_nil idx)
      · simpa using h
  | cons idx t ih =>
      rw [List.foldl_cons]
      refine ih _ ?_
      rcases h with ⟨idx0, hidx0, hval, hskip⟩ | h
      · rcases List.mem_cons.1 hidx0 with heq | hmem
        · subst heq
          subst hval
          right
          show (((if skip (id_map.getD idx0 0) then d
            else dinsert d (id_map.getD idx0 0) (sims.getD idx0 0))).lookup
              (id_map.getD idx0 0)).isSome
          rw [if_neg (by rw [hskip]; exact Bool.false_ne_true)]
          rw [lookup_dinsert, if_pos rfl]
          rfl
        · exact Or.inl ⟨idx0, hmem, hval, hskip⟩
      · right
        show (((if skip (id_map.getD idx 0) then d
          else dinsert d (id_map.getD idx 0) (sims.getD idx 0))).lookup b).isSome
        by_cases hs : skip (id_map.getD idx 0)
        · rw [if_pos hs]
          exact h
        · rw [if_neg hs, lookup_dinsert]
          by_cases hb : b = id_map.getD idx 0
          · rw [if_pos hb]
            rfl
          · rw [if_neg hb]
            exact h

theorem candidate_scores_present (id_map : List ℤ) (sims : List ℚ)
    (tops : List ℕ) (skip : ℤ → Bool) :
    ∀ b ∈ candidateIdsOf id_map tops skip,
      ((candidateSimsOf id_map sims tops skip).lookup b).isSome := by
  intro b hb
  rcases mem_candidateIdsOf hb with ⟨hskip, idx, hidx, hval⟩
  exact lookup_candidateSimsOf_isSome id_map sims skip tops [] b
    (Or.inl ⟨idx, hidx, hval, hskip⟩)

theorem argsortAsc_perm (sims : List ℚ) :
    (argsortAsc sims).Perm (List.range sims.length) :=
  List.mergeSort_perm _ _

theorem argsortAsc_length (sims : List ℚ) :
    (argsortAsc sims).length = sims.length := by
  rw [(argsortAsc_perm sims).length_eq, List.length_range]

theorem pySliceLast_length_le {α : Type} (l : List α) (m : ℕ) :
    (pySliceLast l m).length ≤ l.length := by
  unfold pySliceLast
  by_cases h : m = 0
  · rw [if_pos h]
  · rw [if_neg h, List.length_drop]
    omega

theorem pySliceLast_length_le_m {α : Type} (l : List α) (m : ℕ) (hm : m ≠ 0) :
    (pySliceLast l m).length ≤ m := by
  unfold pySliceLast
  rw [if_neg hm, List.length_drop]
  omega

theorem pySliceLast_all {α : Type} (l : List α) (m : ℕ) (h : l.length ≤ m) :
    pySliceLast l m = l := by
  unfold pySliceLast
  by_cases hm : m = 0
  · rw [if_pos hm]
  · rw [if_neg hm, Nat.sub_eq_zero_of_le h, List.drop_zero]

/-- In a list sorted by a score descending, a strictly higher-scoring element
sits at a strictly smaller index. -/
theorem indexOf_lt_of_score_lt {F : ℤ → ℚ} :
    ∀ {l : List ℤ}, l.Pairwise (fun a b => F b ≤ F a) → ∀ {a b : ℤ},
      a ∈ l → b ∈ l → F b < F a → l.indexOf a < l.indexOf b
  | [], _, a, _, ha, _, _ => absurd ha (List.not_mem_nil a)
  | c :: t, hp, a, b, ha, hb, hF => by
      rcases List.pairwise_cons.1 hp with ⟨hc, hp'⟩
      by_cases hca : c = a
      · subst hca
        have hba : b ≠ c := fun hc' => absurd hF (by rw [hc']; exact lt_irrefl _)
        rw [List.indexOf_cons_self, List.indexOf_cons_ne t hba.symm]
        exact Nat.succ_pos _
      · have hat : a ∈ t := List.mem_of_ne_of_mem (fun hc' => hca hc'.symm) ha
        by_cases hcb : c = b
        · subst hcb
          exact absurd hF (not_lt.2 (hc a hat))
        · have hbt : b ∈ t := List.mem_of_ne_of_mem (fun hc' => hcb hc'.symm) hb
          rw [List.indexOf_cons_ne t hca, List.indexOf_cons_ne t hcb]
          exact Nat.succ_lt_succ (indexOf_lt_of_score_lt hp' hat hbt hF)

/-! ## The claims -/

/-- Claim C2: for every seed id present in the loaded id-to-row mapping and
every `k`, the seed id itself never appears in the output of
`recommend_by_bottle_id (seed, k)` (which succeeds). -/
theorem claim2_self_exclusion (e : Engine) (sims : List ℚ) (bottle_id : ℤ)
    (k : ℕ) (r : ℕ) (h : (build_reverse_map e.id_map).lookup bottle_id = some r) :
    ∃ out, recommend_by_bottle_id e sims bottle_id k = some out ∧
      bottle_id ∉ out := by
  simp only [recommend_by_bottle_id, h]
  obtain ⟨out0, heq0, hperm⟩ := rerank_perm_of e.popularity_map
    (candidateSimsOf e.id_map sims
      ((pySliceLast (argsortAsc sims) (pool_size + 1)).reverse)
      (fun b => decide (b = bottle_id)))
    (candidateIdsOf e.id_map
      ((pySliceLast (argsortAsc sims) (pool_size + 1)).reverse)
      (fun b => decide (b = bottle_id)))
    alphaDefault
    (candidate_scores_present e.id_map sims _ _)
  rw [heq0]
  refine ⟨out0.take k, rfl, fun hmem => ?_⟩
  have h1 : bottle_id ∈ out0 := List.take_subset k out0 hmem
  have h2 := (mem_candidateIdsOf (hperm.subset h1)).1
  simp at h2

/-- Claim C3: a seed id absent from the loaded id-to-row mapping yields the
empty list, not an error. -/
theorem claim3_unknown_seed (e : Engine) (sims : List ℚ) (bottle_id : ℤ)
    (k : ℕ) (h : (build_reverse_map e.id_map).lookup bottle_id = none) :
    recommend_by_bottle_id e sims bottle_id k = some [] := by
  unfold recommend_by_bottle_id
  rw [h]

theorem claim2_witness :
    (build_reverse_map (Engine.mk [10, 20, 30] []).id_map).lookup 20 = some 1 ∧
    ∃ out, recommend_by_bottle_id (Engine.mk [10, 20, 30] []) [1, 2, 3] 20 2 =
      some out ∧ (20 : ℤ) ∉ out :=
  ⟨by decide, claim2_self_exclusion (Engine.mk [10, 20, 30] []) [1, 2, 3] 20 2 1
    (by decide)⟩

theorem claim3_witness :
    (build_reverse_map (Engine.mk [10, 20, 30] []).id_map).lookup 99 = none ∧
    recommend_by_bottle_id (Engine.mk [10, 20, 30] []) [1, 2, 3] 99 5 = some [] :=
  ⟨by decide, claim3_unknown_seed (Engine.mk [10, 20, 30] []) [1, 2, 3] 99 5
    (by decide)⟩

/-- Claim C4 counterexample: the forward map `[7, 7]` sends rows 0 and 1 to
the same id 7 (not injective, so its inverse is not well-defined), yet the
load-time reverse-map construction does not fail: it silently produces the
well-formed map `[(7, 1)]`, resolving id 7 to row 1. -/
theorem claim4_counterexample :
    ([7, 7] : List ℤ).getD 0 0 = ([7, 7] : List ℤ).getD 1 0 ∧
    build_reverse_map [7, 7] = [(7, 1)] ∧
    (build_reverse_map [7, 7]).lookup 7 = some 1 := by
  exact ⟨rfl, by decide, by decide⟩

/-- Claim C4 (amended): loading never fails on a non-injective row-to-id map;
the inverse is built with later rows silently overwriting earlier ones, so an
id resolves to the row of its last occurrence (and to `none` only when it
does not occur at all). -/
theorem claim4_amended (id_map : List ℤ) (i : ℤ) :
    (build_reverse_map id_map).lookup i =
      ((id_map.enum.filter (fun p => p.2 = i)).map Prod.fst).getLast? :=
  lookup_build_reverse_map id_map i

/-- Claim C10: for a candidate list of distinct ids, each with a similarity
score, the reranker returns a permutation of its input: same length, exactly
the same ids, nothing added, dropped or duplicated. -/
theorem claim10_rerank_permutes (pm ss : List (ℤ × ℚ)) (ids : List ℤ)
    (sc : ℤ → ℚ) (alpha : ℚ) (hnd : ids.Nodup)
    (hsc : ∀ b ∈ ids, ss.lookup b = some (sc b)) :
    ∃ out, rerank_candidates pm ids ss alpha = some out ∧ out.Perm ids ∧
      out.length = ids.length ∧ (∀ b, b ∈ out ↔ b ∈ ids) ∧ out.Nodup := by
  obtain ⟨out, heq, hperm⟩ := rerank_perm_of pm ss ids alpha
    (fun b hb => by rw [hsc b hb]; rfl)
  exact ⟨out, heq, hperm, hperm.length_eq, fun b => hperm.mem_iff,
    hperm.nodup_iff.2 hnd⟩

theorem claim10_witness :
    ([5, 6] : List ℤ).Nodup ∧
    (∀ b ∈ ([5, 6] : List ℤ), List.lookup b [((5 : ℤ), (2 : ℚ)), (6, 3)] =
      some (if b = 5 then 2 else 3)) ∧
    ∃ out, rerank_candidates [] [5, 6] [((5 : ℤ), (2 : ℚ)), (6, 3)]
        alphaDefault = some out ∧ out.Perm [5, 6] ∧
      out.length = ([5, 6] : List ℤ).length ∧
      (∀ b, b ∈ out ↔ b ∈ ([5, 6] : List ℤ)) ∧ out.Nodup :=
  ⟨by decide, by decide,
    claim10_rerank_permutes [] [((5 : ℤ), (2 : ℚ)), (6, 3)] [5, 6]
      (fun b => if b = 5 then 2 else 3) alphaDefault (by decide) (by decide)⟩

/-- Claim C1: on a non-empty candidate pool with a similarity score for each
candidate, the reranker normalizes each similarity to
`(raw - min) / (max - min + 1e-9)` with min/max over this pool only, defaults
the popularity of ids missing from the popularity map to `0.4`, scores with
`final = norm * alpha + pop * (1 - alpha)` at the default `alpha = 0.85`, and
returns the candidate ids (a permutation of the pool) ordered by descending
final score; on an empty pool it returns the empty list. -/
theorem claim1_rerank_formula (pm ss : List (ℤ × ℚ)) (ids : List ℤ)
    (sc : ℤ → ℚ) (mn mx : ℚ) (hne : ids ≠ [])
    (hsc : ∀ b ∈ ids, ss.lookup b = some (sc b))
    (hmn : (ids.map sc).min? = some mn) (hmx : (ids.map sc).max? = some mx) :
    (∃ out, rerank_candidates pm ids ss alphaDefault = some out ∧
      out.Perm ids ∧
      out.Pairwise (fun a b =>
        (sc b - mn) / (mx - mn + rerankEps) * alphaDefault +
          popOf pm b * (1 - alphaDefault) ≤
        (sc a - mn) / (mx - mn + rerankEps) * alphaDefault +
          popOf pm a * (1 - alphaDefault))) ∧
    rerank_candidates pm [] ss alphaDefault = some [] := by
  constructor
  · obtain ⟨out, heq, hperm, hpw⟩ :=
      rerank_sorted_of pm ss ids sc alphaDefault mn mx hne hsc hmn hmx
    exact ⟨out, heq, hperm, hpw⟩
  · rfl

theorem claim1_witness :
    (([5, 6] : List ℤ) ≠ []) ∧
    (∀ b ∈ ([5, 6] : List ℤ), List.lookup b [((5 : ℤ), (2 : ℚ)), (6, 3)] =
      some (if b = 5 then 2 else 3)) ∧
    ((([5, 6] : List ℤ).map (fun b => if b = 5 then (2 : ℚ) else 3)).min? =
      some 2) ∧
    ((([5, 6] : List ℤ).map (fun b => if b = 5 then (2 : ℚ) else 3)).max? =
      some 3) ∧
    ((∃ out, rerank_candidates [] [5, 6] [((5 : ℤ), (2 : ℚ)), (6, 3)]
        alphaDefault = some out ∧
      out.Perm [5, 6] ∧
      out.Pairwise (fun a b =>
        ((if b = 5 then (2 : ℚ) else 3) - 2) / (3 - 2 + rerankEps) *
            alphaDefault + popOf [] b * (1 - alphaDefault) ≤
        ((if a = 5 then (2 : ℚ) else 3) - 2) / (3 - 2 + rerankEps) *
            alphaDefault + popOf [] a * (1 - alphaDefault))) ∧
    rerank_candidates [] [] [((5 : ℤ), (2 : ℚ)), (6, 3)] alphaDefault =
      some []) :=
  ⟨by decide, by decide, by decide, by decide,
    claim1_rerank_formula [] [((5 : ℤ), (2 : ℚ)), (6, 3)] [5, 6]
      (fun b => if b = 5 then 2 else 3) 2 3 (by decide) (by decide) (by decide)
      (by decide)⟩

/-- Claim C9: in one candidate pool, if two candidates have equal popularity
and the first has strictly higher raw similarity — or, in general, whenever
the first's normalized-similarity advantage scaled by `alpha` exceeds
`(1 - alpha)` times the popularity difference in the second's favour — then
the first gets the strictly higher final score and sits strictly earlier in
the reranked output. -/
theorem claim9_rerank_monotone (pm ss : List (ℤ × ℚ)) (ids : List ℤ)
    (sc : ℤ → ℚ) (mn mx : ℚ) (a b : ℤ) (hne : ids ≠ [])
    (hsc : ∀ x ∈ ids, ss.lookup x = some (sc x))
    (hmn : (ids.map sc).min? = some mn) (hmx : (ids.map sc).max? = some mx)
    (ha : a ∈ ids) (hb : b ∈ ids)
    (hcond : (popOf pm a = popOf pm b ∧ sc b < sc a) ∨
      alphaDefault * ((sc a - sc b) / (mx - mn + rerankEps)) >
        (1 - alphaDefault) * (popOf pm b - popOf pm a)) :
    ∃ out, rerank_candidates pm ids ss alphaDefault = some out ∧
      finalScore pm sc mn mx alphaDefault b <
        finalScore pm sc mn mx alphaDefault a ∧
      out.indexOf a < out.indexOf b := by
  have hmnmx : mn ≤ mx := by
    rcases qmin?_eq_some_iff.1 hmn with ⟨hmem, _⟩
    exact (qmax?_eq_some_iff.1 hmx).2 mn hmem
  have hD : 0 < mx - mn + rerankEps := by
    rw [rerankEps]
    have h9 : (0 : ℚ) < 1 / 1000000000 := by norm_num
    linarith
  have halpha : (0 : ℚ) < alphaDefault := by rw [alphaDefault]; norm_num
  have halpha1 : alphaDefault < 1 := by rw [alphaDefault]; norm_num
  have hgen : alphaDefault * ((sc a - sc b) / (mx - mn + rerankEps)) >
      (1 - alphaDefault) * (popOf pm b - popOf pm a) := by
    rcases hcond with ⟨hpop, hlt⟩ | h
    · rw [hpop]
      have hnum : 0 < sc a - sc b := by linarith
      have hfrac : 0 < (sc a - sc b) / (mx - mn + rerankEps) :=
        div_pos hnum hD
      have : 0 < alphaDefault * ((sc a - sc b) / (mx - mn + rerankEps)) :=
        mul_pos halpha hfrac
      linarith
    · exact h
  have hFdiff : finalScore pm sc mn mx alphaDefault a -
      finalScore pm sc mn mx alphaDefault b =
      alphaDefault * ((sc a - sc b) / (mx - mn + rerankEps)) -
        (1 - alphaDefault) * (popOf pm b - popOf pm a) := by
    unfold finalScore
    field_simp
    ring
  have hFlt : finalScore pm sc mn mx alphaDefault b <
      finalScore pm sc mn mx alphaDefault a := by
    have h0 : 0 < finalScore pm sc mn mx alphaDefault a -
        finalScore pm sc mn mx alphaDefault b := by
      rw [hFdiff]
      linarith
    linarith
  obtain ⟨out, heq, hperm, hpw⟩ :=
    rerank_sorted_of pm ss ids sc alphaDefault mn mx hne hsc hmn hmx
  refine ⟨out, heq, hFlt, ?_⟩
  exact indexOf_lt_of_score_lt hpw (hperm.mem_iff.2 ha) (hperm.mem_iff.2 hb)
    hFlt

theorem claim9_witness :
    (([5, 6] : List ℤ) ≠ []) ∧
    (∀ x ∈ ([5, 6] : List ℤ), List.lookup x [((5 : ℤ), (3 : ℚ)), (6, 2)] =
      some (if x = 5 then 3 else 2)) ∧
    ((([5, 6] : List ℤ).map (fun x => if x = 5 then (3 : ℚ) else 2)).min? =
      some 2) ∧
    ((([5, 6] : List ℤ).map (fun x => if x = 5 then (3 : ℚ) else 2)).max? =
      some 3) ∧
    popOf [] 5 = popOf [] 6 ∧
    ∃ out, rerank_candidates [] [5, 6] [((5 : ℤ), (3 : ℚ)), (6, 2)]
        alphaDefault = some out ∧
      finalScore [] (fun x => if x = 5 then (3 : ℚ) else 2) 2 3 alphaDefault 6 <
        finalScore [] (fun x => if x = 5 then (3 : ℚ) else 2) 2 3 alphaDefault
          5 ∧
      out.indexOf 5 < out.indexOf 6 :=
  ⟨by decide, by decide, by decide, by decide, rfl,
    claim9_rerank_monotone [] [((5 : ℤ), (3 : ℚ)), (6, 2)] [5, 6]
      (fun x => if x = 5 then 3 else 2) 2 3 5 6 (by decide) (by decide)
      (by decide) (by decide) (by decide) (by decide)
      (Or.inl ⟨rfl, by norm_num⟩)⟩

/-- Claim C5 (evaluated at the failing input): on a catalog of two items with
identical rating data (rating count 100, rating value 4 — so both weighted
ratings equal 4), `compute_popularity_scores` hits the unguarded
`(WR - min) / (max - min)` with `max - min = 0`: IEEE arithmetic yields
`0/0 = NaN` (modelled `none`) for every item, not a constant fallback. -/
theorem claim5_degenerate_corpus_nan :
    compute_popularity_scores [1, 2] [100, 100] [4, 4] =
      some [(1, none), (2, none)] := by
  have hC : globalMeanC [100, 100] [4, 4] = some 4 := by
    norm_num [globalMeanC]
    exact fun h => absurd h (by decide)
  have hwr : weightedRatings [100, 100] [4, 4] 4 = [4, 4] := by
    norm_num [weightedRatings, m_threshold]
  have hns : normalizeScores [4, 4] = [none, none] := by
    norm_num [normalizeScores, List.min?, List.max?, min_def, max_def]
  unfold compute_popularity_scores
  rw [hC, Option.map_some', hwr, hns]
  rfl

/-- Claim C6 counterexample: a row whose first accord slot holds the
placeholder `"unknown"` — the claim says it must be dropped, but the builder
only filters `"null"`, `"nan"`, `"none"`, so the profile comes out as
`"unknown unknown unknown"`. -/
theorem claim6_counterexample :
    ('u' :: 'n' :: 'k' :: 'n' :: 'o' :: 'w' :: 'n' :: []) ∈
      soup_tokens (SoupRow.mk (some ('u' :: 'n' :: 'k' :: 'n' :: 'o' :: 'w' ::
        'n' :: [])) none none none none none none none) ∧
    build_soup (SoupRow.mk (some ('u' :: 'n' :: 'k' :: 'n' :: 'o' :: 'w' ::
        'n' :: [])) none none none none none none none) =
      "unknown unknown unknown" := by
  exact ⟨by decide, by decide⟩

/-- Claim C6 (amended): every token the soup builder emits is non-empty and
none of `"null"`, `"nan"`, `"none"` — but `"unknown"` is not among the
filtered placeholders and passes through. -/
theorem claim6_amended (row : SoupRow) (t : List Char)
    (h : t ∈ soup_tokens row) : t ≠ [] ∧ t ∉ placeholders := by
  have key : ∀ v : List Char,
      (v ≠ [] && ! placeholders.contains v) = true → v ≠ [] ∧ v ∉ placeholders := by
    intro v hv
    rcases (Bool.and_eq_true _ _).mp hv with ⟨h1, h2⟩
    refine ⟨of_decide_eq_true h1, fun hc => ?_⟩
    rw [Bool.not_eq_true'] at h2
    have helem : List.elem v placeholders = true := List.elem_iff.2 hc
    rw [show placeholders.contains v = List.elem v placeholders from rfl,
      helem] at h2
    exact absurd h2 (by decide)
  unfold soup_tokens at h
  rcases List.mem_append.1 h with h | h
  · rcases List.mem_flatMap.1 h with ⟨v, hv, ht⟩
    rcases List.eq_of_mem_replicate ht
    exact key _ (List.mem_filter.1 hv).2
  · exact key _ (List.mem_filter.1 h).2

theorem claim6_amended_witness :
    (('w' :: 'o' :: 'o' :: 'd' :: 'y' :: []) ∈
      soup_tokens (SoupRow.mk (some ('w' :: 'o' :: 'o' :: 'd' :: 'y' :: []))
        none none none none none none none)) ∧
    ('w' :: 'o' :: 'o' :: 'd' :: 'y' :: []) ≠ [] ∧
    ('w' :: 'o' :: 'o' :: 'd' :: 'y' :: []) ∉ placeholders :=
  ⟨by decide, claim6_amended
    (SoupRow.mk (some ('w' :: 'o' :: 'o' :: 'd' :: 'y' :: [])) none none none
      none none none none)
    ('w' :: 'o' :: 'o' :: 'd' :: 'y' :: []) (by decide)⟩

/-- Claim C7: away from the degenerate all-equal case (`mn < mx` over the
weighted ratings, with a well-defined global mean `C`), every popularity
score `(WR - mn) / (mx - mn)` produced by `compute_popularity_scores` lies in
`[0, 1]`, items attaining the maximum weighted rating score exactly 1, and
items attaining the minimum score exactly 0. -/
theorem claim7_popularity_range (ids : List ℤ) (v R : List ℚ) (C mn mx : ℚ)
    (hC : globalMeanC v R = some C)
    (hmn : (weightedRatings v R C).min? = some mn)
    (hmx : (weightedRatings v R C).max? = some mx) (hlt : mn < mx) :
    compute_popularity_scores ids v R =
      some (ids.zip ((weightedRatings v R C).map
        (fun x => some ((x - mn) / (mx - mn))))) ∧
    ∀ x ∈ weightedRatings v R C,
      0 ≤ (x - mn) / (mx - mn) ∧ (x - mn) / (mx - mn) ≤ 1 ∧
      (x = mx → (x - mn) / (mx - mn) = 1) ∧
      (x = mn → (x - mn) / (mx - mn) = 0) := by
  have hpos : 0 < mx - mn := sub_pos.2 hlt
  have hns : normalizeScores (weightedRatings v R C) =
      (weightedRatings v R C).map (fun x => some ((x - mn) / (mx - mn))) := by
    unfold normalizeScores
    rw [hmn, hmx]
    refine List.map_congr_left (fun x _ => ?_)
    rw [if_neg (ne_of_gt hpos)]
  constructor
  · unfold compute_popularity_scores
    rw [hC, Option.map_some', hns]
  · intro x hx
    have hxlo : mn ≤ x := (qmin?_eq_some_iff.1 hmn).2 x hx
    have hxhi : x ≤ mx := (qmax?_eq_some_iff.1 hmx).2 x hx
    refine ⟨div_nonneg (by linarith) (le_of_lt hpos), ?_, ?_, ?_⟩
    · rw [div_le_one hpos]
      linarith
    · intro hxe
      subst hxe
      exact div_self (ne_of_gt hpos)
    · intro hxe
      subst hxe
      rw [sub_self, zero_div]

theorem claim7_witness :
    globalMeanC [100, 100] [4, 2] = some 3 ∧
    (weightedRatings [100, 100] [4, 2] 3).min? = some (7 / 3) ∧
    (weightedRatings [100, 100] [4, 2] 3).max? = some (11 / 3) ∧
    ((7 : ℚ) / 3 < 11 / 3) ∧
    (compute_popularity_scores [1, 2] [100, 100] [4, 2] =
      some (([1, 2] : List ℤ).zip ((weightedRatings [100, 100] [4, 2] 3).map
        (fun x => some ((x - 7 / 3) / (11 / 3 - 7 / 3))))) ∧
    ∀ x ∈ weightedRatings [100, 100] [4, 2] 3,
      0 ≤ (x - 7 / 3) / (11 / 3 - 7 / 3) ∧
      (x - 7 / 3) / (11 / 3 - 7 / 3) ≤ 1 ∧
      (x = 11 / 3 → (x - 7 / 3) / (11 / 3 - 7 / 3) = 1) ∧
      (x = 7 / 3 → (x - 7 / 3) / (11 / 3 - 7 / 3) = 0)) :=
  ⟨by norm_num [globalMeanC]; exact fun h => absurd h (by decide),
   by norm_num [weightedRatings, m_threshold, List.min?, min_def],
   by norm_num [weightedRatings, m_threshold, List.max?, max_def],
   by norm_num,
   claim7_popularity_range [1, 2] [100, 100] [4, 2] 3 (7 / 3) (11 / 3)
     (by norm_num [globalMeanC]; exact fun h => absurd h (by decide))
     (by norm_num [weightedRatings, m_threshold, List.min?, min_def])
     (by norm_num [weightedRatings, m_threshold, List.max?, max_def])
     (by norm_num)⟩

/-- With consistent artifacts, the seed-query candidate pool has at most
`corpus_size - 1` members: either the corpus fits inside the 51-row pool and
the seed's own row is filtered out of it, or the pool is capped at 51 ≤
`corpus_size - 1`. -/
theorem seed_pool_le (e : Engine) (sims : List ℚ) (bottle_id : ℤ) (r : ℕ)
    (hr : (build_reverse_map e.id_map).lookup bottle_id = some r)
    (hcons : sims.length = e.id_map.length) :
    (candidateIdsOf e.id_map
      ((pySliceLast (argsortAsc sims) (pool_size + 1)).reverse)
      (fun b => decide (b = bottle_id))).length ≤ e.id_map.length - 1 := by
  obtain ⟨hrlt, hrid⟩ := build_reverse_map_sound hr
  by_cases hcase : sims.length ≤ pool_size + 1
  · have hslice : pySliceLast (argsortAsc sims) (pool_size + 1) =
        argsortAsc sims :=
      pySliceLast_all _ _ (by rw [argsortAsc_length]; exact hcase)
    rw [hslice]
    have hrmem : r ∈ (argsortAsc sims).reverse := by
      rw [List.mem_reverse]
      exact ((argsortAsc_perm sims).mem_iff).2
        (List.mem_range.2 (by rw [hcons]; exact hrlt))
    have hbmem : bottle_id ∈ (argsortAsc sims).reverse.map
        (fun idx => e.id_map.getD idx 0) :=
      List.mem_map.2 ⟨r, hrmem, hrid⟩
    have hlt : (candidateIdsOf e.id_map (argsortAsc sims).reverse
        (fun b => decide (b = bottle_id))).length <
        ((argsortAsc sims).reverse.map (fun idx => e.id_map.getD idx 0)).length := by
      refine List.length_filter_lt_length_iff_exists.2 ⟨bottle_id, hbmem, ?_⟩
      simp
    rw [List.length_map, List.length_reverse, argsortAsc_length, hcons] at hlt
    omega
  · have h51 : (candidateIdsOf e.id_map
        ((pySliceLast (argsortAsc sims) (pool_size + 1)).reverse)
        (fun b => decide (b = bottle_id))).length ≤ pool_size + 1 := by
      refine le_trans (candidateIdsOf_length_le _ _ _) ?_
      rw [List.length_reverse]
      exact pySliceLast_length_le_m _ _ (by decide)
    have hn : pool_size + 1 < sims.length := Nat.lt_of_not_le hcase
    rw [hcons] at hn
    omega

/-- Claim C8: results are never longer than `k`; a seed-based query moreover
returns at most `min k (corpus_size - 1)` ids and a free-text query at most
`min k corpus_size`, where `corpus_size` is the number of mapped rows. -/
theorem claim8_length_bounds (e : Engine) (sims : List ℚ) (bottle_id : ℤ)
    (k : ℕ) (hcons : sims.length = e.id_map.length) :
    (∀ out, recommend_by_bottle_id e sims bottle_id k = some out →
      out.length ≤ k ∧ out.length ≤ min k (e.id_map.length - 1)) ∧
    (∀ out, recommend_by_query e sims k = some out →
      out.length ≤ k ∧ out.length ≤ min k e.id_map.length) := by
  constructor
  · intro out hout
    cases hmatch : (build_reverse_map e.id_map).lookup bottle_id with
    | none =>
        simp only [recommend_by_bottle_id, hmatch, Option.some.injEq] at hout
        subst hout
        exact ⟨Nat.zero_le _, Nat.zero_le _⟩
    | some r =>
        simp only [recommend_by_bottle_id, hmatch] at hout
        obtain ⟨out0, heq0, hperm⟩ := rerank_perm_of e.popularity_map
          (candidateSimsOf e.id_map sims
            ((pySliceLast (argsortAsc sims) (pool_size + 1)).reverse)
            (fun b => decide (b = bottle_id)))
          (candidateIdsOf e.id_map
            ((pySliceLast (argsortAsc sims) (pool_size + 1)).reverse)
            (fun b => decide (b = bottle_id)))
          alphaDefault
          (candidate_scores_present e.id_map sims _ _)
        rw [heq0, Option.map_some', Option.some.injEq] at hout
        subst hout
        have hlen0 : out0.length ≤ e.id_map.length - 1 := by
          rw [hperm.length_eq]
          exact seed_pool_le e sims bottle_id r hmatch hcons
        rw [List.length_take]
        exact ⟨min_le_left _ _, le_min (min_le_left _ _)
          (le_trans (min_le_right _ _) hlen0)⟩
  · intro out hout
    simp only [recommend_by_query] at hout
    obtain ⟨out0, heq0, hperm⟩ := rerank_perm_of e.popularity_map
      (candidateSimsOf e.id_map sims
        ((pySliceLast (argsortAsc sims) k).reverse) (fun _ => false))
      (candidateIdsOf e.id_map
        ((pySliceLast (argsortAsc sims) k).reverse) (fun _ => false))
      alphaDefault
      (candidate_scores_present e.id_map sims _ _)
    rw [heq0, Option.map_some', Option.some.injEq] at hout
    subst hout
    have hlen0 : out0.length ≤ e.id_map.length := by
      rw [hperm.length_eq]
      refine le_trans (candidateIdsOf_length_le _ _ _) ?_
      rw [List.length_reverse]
      calc (pySliceLast (argsortAsc sims) k).length
          ≤ (argsortAsc sims).length := pySliceLast_length_le _ _
        _ = e.id_map.length := by rw [argsortAsc_length, hcons]
    rw [List.length_take]
    exact ⟨min_le_left _ _, le_min (min_le_left _ _)
      (le_trans (min_le_right _ _) hlen0)⟩

theorem claim8_witness :
    (([1, 2, 3] : List ℚ).length = (Engine.mk [10, 20, 30] []).id_map.length) ∧
    (∀ out, recommend_by_bottle_id (Engine.mk [10, 20, 30] []) [1, 2, 3] 20 2 =
      some out → out.length ≤ 2 ∧
      out.length ≤ min 2 ((Engine.mk [10, 20, 30] []).id_map.length - 1)) ∧
    (∀ out, recommend_by_query (Engine.mk [10, 20, 30] []) [1, 2, 3] 2 =
      some out → out.length ≤ 2 ∧
      out.length ≤ min 2 (Engine.mk [10, 20, 30] []).id_map.length) :=
  ⟨by decide,
   (claim8_length_bounds (Engine.mk [10, 20, 30] []) [1, 2, 3] 20 2
     (by decide)).1,
   (claim8_length_bounds (Engine.mk [10, 20, 30] []) [1, 2, 3] 20 2
     (by decide)).2⟩
